import Mathlib

/-
  Verification of the ApiBox cache/history engine, proxy executor and task
  scheduler (Rabithua/ApiBox, Deno/TypeScript).

  The embedding models the first CacheManager in src/db/client.ts (the copy
  the specification cites: set lines 170-192, appendHourlySnapshot 199-230,
  getHistory 236-257, get 262-278, generateKey 333-343), the ProxyEngine
  (ProxyEngine.proxyRequest) and the second TaskScheduler in
  src/utils/scheduler.ts (the copy with hour alignment, addTask 293-341,
  scheduleNextExecution 484-502, runTask 507-537).

  Modelling conventions:
  * A JS `Map` is an association list in insertion order: `Map.set` on an
    existing key updates the value in place, on a new key appends at the end;
    `Map.delete` removes the binding; `keys().next().value` is the head key.
  * Timestamps, TTLs and intervals are `Int` (JS numbers holding epoch
    milliseconds); `Math.floor(t / 3600000)` is `Int.fdiv t 3600000`.
  * JS truthiness is modelled where the source relies on it: the empty
    string and the number 0 are falsy; `undefined` is `Option.none`.
  * `setTimeout`-based expiry timers and the `setInterval`/recursive
    `setTimeout` loops are real-time asynchronous behaviour; the state
    transitions they eventually apply are modelled as the explicit
    functions below, invoked by the theorems at chosen instants.
-/

namespace ApiBox

/--
Runtime values that flow through the cache (`unknown` in the source).
`null` is JSON null (falsy, and the sentinel `CacheManager.get` returns on a
miss); `atom` is any other primitive (its JS truthiness recorded in the first
field); `obj t v` is an object of snapshot shape `\x7b timestamp, value \x7d`;
`arr pts` is an array of such snapshot objects (the only array shape the
history code paths of the source ever store or read).
-/
inductive CVal where
  | null : CVal
  | atom (truthy : Bool) (tag : Nat) : CVal
  | obj (timestamp : Int) (value : CVal) : CVal
  | arr (points : List (Int × CVal)) : CVal

/-- The JS test `x === null` as a boolean on modelled values. -/
def isNull : CVal → Bool
  | .null => true
  | _ => false

/-- JS truthiness of a `CVal`: null is falsy, objects and arrays are truthy,
primitives carry their own flag. -/
def truthyVal : CVal → Bool
  | .null => false
  | .atom t _ => t
  | .obj _ _ => true
  | .arr _ => true

/-- `CacheItem` from src/types/index.ts: stored payload plus write time. -/
structure CacheItem where
  data : CVal
  timestamp : Int

/-- The private `cache : Map<string, CacheItem>` in insertion order. -/
abbrev CacheState := List (String × CacheItem)

/-- First-match lookup in an association list (JS `Map.get` / object index). -/
def lookupKey {β : Type} : List (String × β) → String → Option β
  | [], _ => none
  | (k, v) :: rest, key => if k = key then some v else lookupKey rest key

/-- JS `Map.set`: update in place if the key is bound, else append at the end. -/
def mapSet {β : Type} : List (String × β) → String → β → List (String × β)
  | [], key, v => [(key, v)]
  | (k, w) :: rest, key, v =>
      if k = key then (k, v) :: rest else (k, w) :: mapSet rest key v

/-- JS `Map.delete`: remove the first binding of the key. -/
def mapDelete {β : Type} : List (String × β) → String → List (String × β)
  | [], _ => []
  | (k, w) :: rest, key => if k = key then rest else (k, w) :: mapDelete rest key

/--
`CacheManager.set` (src/db/client.ts lines 170-192), parameterised by the
configured `maxSize`.  When `cache.size >= maxSize` the code fetches
`firstKey = cache.keys().next().value` and deletes it under `if (firstKey)` -
a JS truthiness test, so no eviction happens when the map is empty or when
the oldest key is the empty string.  The `setTimeout` auto-expiry for a
positive ttl is an asynchronous timer (see header note) and does not affect
the state `set` leaves behind, which is what the claims quantify over.
-/
def cacheSet (maxSize : Nat) (st : CacheState) (key : String) (data : CVal)
    (now : Int) : CacheState :=
  let st1 := if maxSize ≤ st.length then
      match st with
      | [] => st
      | (firstKey, _) :: _ => if firstKey = "" then st else mapDelete st firstKey
    else st
  mapSet st1 key ⟨data, now⟩

/-- The effective TTL `ttl || this.defaultTtl`: JS `||` falls through on a
falsy left operand, i.e. on `undefined` and on `0`. -/
def jsOrTtl (ttl : Option Int) (dflt : Int) : Int :=
  match ttl with
  | none => dflt
  | some t => if t = 0 then dflt else t

/--
`CacheManager.get` (src/db/client.ts lines 262-278): returns the stored data,
or JS `null` (`CVal.null`) on a miss; when the entry's age strictly exceeds a
positive effective TTL the entry is deleted and null returned (lazy expiry).
Returns the possibly mutated map alongside the result.
-/
def cacheGet (defaultTtl : Int) (st : CacheState) (key : String)
    (ttl : Option Int) (now : Int) : CVal × CacheState :=
  match lookupKey st key with
  | none => (.null, st)
  | some item =>
      let cacheTtl := jsOrTtl ttl defaultTtl
      if 0 < cacheTtl ∧ cacheTtl < now - item.timestamp then
        (.null, mapDelete st key)
      else
        (item.data, st)

/-! ### Association-list map lemmas -/

theorem lookupKey_mapSet_self {β : Type} (st : List (String × β)) (k : String)
    (v : β) : lookupKey (mapSet st k v) k = some v := by
  induction st with
  | nil => simp [mapSet, lookupKey]
  | cons hd tl ih =>
      obtain ⟨k0, w⟩ := hd
      by_cases h : k0 = k <;> simp [mapSet, lookupKey, h, ih]

theorem lookupKey_mapSet_ne {β : Type} (st : List (String × β)) (k k1 : String)
    (v : β) (h : k ≠ k1) : lookupKey (mapSet st k v) k1 = lookupKey st k1 := by
  induction st with
  | nil => simp [mapSet, lookupKey, h]
  | cons hd tl ih =>
      obtain ⟨k0, w⟩ := hd
      by_cases h0 : k0 = k
      · subst h0
        simp [mapSet, lookupKey, h]
      · simp [mapSet, lookupKey, h0, ih]

theorem mapSet_length_of_mem {β : Type} (st : List (String × β)) (k : String)
    (v : β) (h : (lookupKey st k).isSome) :
    (mapSet st k v).length = st.length := by
  induction st with
  | nil => simp [lookupKey] at h
  | cons hd tl ih =>
      obtain ⟨k0, w⟩ := hd
      by_cases h0 : k0 = k
      · simp [mapSet, h0]
      · simp [lookupKey, h0] at h
        simp [mapSet, h0, ih h]

theorem mapSet_length_of_not_mem {β : Type} (st : List (String × β))
    (k : String) (v : β) (h : lookupKey st k = none) :
    (mapSet st k v).length = st.length + 1 := by
  induction st with
  | nil => simp [mapSet]
  | cons hd tl ih =>
      obtain ⟨k0, w⟩ := hd
      by_cases h0 : k0 = k
      · simp [lookupKey, h0] at h
      · simp [lookupKey, h0] at h
        simp [mapSet, h0, ih h]

theorem mapSet_length_le {β : Type} (st : List (String × β)) (k : String)
    (v : β) : (mapSet st k v).length ≤ st.length + 1 := by
  cases h : lookupKey st k with
  | none => simp [mapSet_length_of_not_mem st k v h]
  | some w =>
      have : (lookupKey st k).isSome := by simp [h]
      simp [mapSet_length_of_mem st k v this]

theorem mapDelete_head {β : Type} (k : String) (v : β)
    (rest : List (String × β)) : mapDelete ((k, v) :: rest) k = rest := by
  simp [mapDelete]

theorem mapSet_keys_of_not_mem {β : Type} (st : List (String × β)) (k : String)
    (v : β) (h : lookupKey st k = none) :
    (mapSet st k v).map Prod.fst = st.map Prod.fst ++ [k] := by
  induction st with
  | nil => simp [mapSet]
  | cons hd tl ih =>
      obtain ⟨k0, w⟩ := hd
      by_cases h0 : k0 = k
      · simp [lookupKey, h0] at h
      · simp [lookupKey, h0] at h
        simp [mapSet, h0, ih h]

theorem lookupKey_eq_none_iff {β : Type} (st : List (String × β)) (k : String) :
    lookupKey st k = none ↔ k ∉ st.map Prod.fst := by
  induction st with
  | nil => simp [lookupKey]
  | cons hd tl ih =>
      obtain ⟨k0, w⟩ := hd
      by_cases h0 : k0 = k
      · subst h0
        simp [lookupKey]
      · have h0a : k ≠ k0 := fun h => h0 h.symm
        simp [lookupKey, h0, h0a, ih]

theorem lookupKey_isSome_iff {β : Type} (st : List (String × β)) (k : String) :
    (lookupKey st k).isSome ↔ k ∈ st.map Prod.fst := by
  rw [Option.isSome_iff_ne_none, ne_eq, lookupKey_eq_none_iff, not_not]

/-- `set` on a store strictly below capacity is a plain `Map.set`. -/
theorem cacheSet_not_full (N : Nat) (st : CacheState) (key : String) (v : CVal)
    (now : Int) (h : ¬ N ≤ st.length) :
    cacheSet N st key v now = mapSet st key ⟨v, now⟩ := by
  simp [cacheSet, h]

/-- `set` on a full store whose oldest key is nonempty first evicts that
oldest entry. -/
theorem cacheSet_full_evict (N : Nat) (k0 : String) (it0 : CacheItem)
    (rest : CacheState) (key : String) (v : CVal) (now : Int)
    (h : N ≤ ((k0, it0) :: rest).length) (hk0 : k0 ≠ "") :
    cacheSet N ((k0, it0) :: rest) key v now = mapSet rest key ⟨v, now⟩ := by
  have h1 : N ≤ rest.length + 1 := by simpa using h
  simp [cacheSet, h1, hk0, mapDelete]

/-- Filling an empty store with at most `N` distinct keys never evicts: the
resulting key sequence is exactly the inserted sequence. -/
theorem foldl_cacheSet_keys (N : Nat) (v : CVal) (now : Int) (ks : List String) :
    ks.Nodup → ks.length ≤ N →
    (ks.foldl (fun s k => cacheSet N s k v now) []).map Prod.fst = ks := by
  induction ks using List.reverseRecOn with
  | nil => intro _ _; rfl
  | append_singleton ks k ih =>
      intro hnd hlen
      have hparts := List.nodup_append.mp hnd
      have hk : k ∉ ks := fun hk => hparts.2.2 hk (by simp)
      have hlen' : ks.length < N := by
        have : ks.length + 1 ≤ N := by simpa using hlen
        omega
      have hkeys := ih hparts.1 (le_of_lt hlen')
      rw [List.foldl_append, List.foldl_cons, List.foldl_nil]
      have hstlen : (ks.foldl (fun s k => cacheSet N s k v now) []).length = ks.length := by
        rw [← List.length_map _ Prod.fst, hkeys]
      have hnofull : ¬ N ≤ (ks.foldl (fun s k => cacheSet N s k v now) []).length := by
        omega
      have hlook : lookupKey (ks.foldl (fun s k => cacheSet N s k v now) []) k = none := by
        rw [lookupKey_eq_none_iff, hkeys]; exact hk
      rw [cacheSet_not_full N _ k v now hnofull,
        mapSet_keys_of_not_mem _ _ _ hlook, hkeys]

/-- Inserting `N + 1` distinct nonempty keys into an empty capacity-`N` store
evicts exactly the first key: the final key sequence is the input without its
head. -/
theorem foldl_cacheSet_overflow (N : Nat) (v : CVal) (now : Int)
    (ks : List String) (hN : 0 < N) (hnd : ks.Nodup) (hne : ∀ k ∈ ks, k ≠ "")
    (hlen : ks.length = N + 1) :
    (ks.foldl (fun s k => cacheSet N s k v now) []).map Prod.fst = ks.drop 1 := by
  rcases List.eq_nil_or_concat ks with hnil | ⟨ks1, klast, hconcat⟩
  · subst hnil; simp at hlen
  rw [List.concat_eq_append] at hconcat
  subst hconcat
  have hparts := List.nodup_append.mp hnd
  have hkl : klast ∉ ks1 := fun hk => hparts.2.2 hk (by simp)
  have hlen1 : ks1.length = N := by simpa using hlen
  have hkeys := foldl_cacheSet_keys N v now ks1 hparts.1 (le_of_eq hlen1)
  rw [List.foldl_append, List.foldl_cons, List.foldl_nil]
  rcases ks1 with _ | ⟨k0, kstl⟩
  · simp at hlen1; omega
  rcases hst : (k0 :: kstl).foldl (fun s k => cacheSet N s k v now) [] with _ | ⟨p0, srest⟩
  · rw [hst] at hkeys; simp at hkeys
  rw [hst] at hkeys
  obtain ⟨hp0, hsrest⟩ : p0.1 = k0 ∧ srest.map Prod.fst = kstl := by
    simpa using hkeys
  have hstlen : (p0 :: srest).length = N := by
    rw [← List.length_map _ Prod.fst, hkeys, hlen1]
  have hfull : N ≤ (p0 :: srest).length := le_of_eq hstlen.symm
  have hk0ne : k0 ≠ "" := hne k0 (by simp)
  have hlook : lookupKey srest klast = none := by
    rw [lookupKey_eq_none_iff, hsrest]
    exact fun hmem => hkl (by simp [hmem])
  obtain ⟨pk, pv⟩ := p0
  simp only at hp0
  subst hp0
  rw [cacheSet_full_evict N pk pv srest klast v now hfull hk0ne,
    mapSet_keys_of_not_mem _ _ _ hlook, hsrest]
  simp

/--
C1 (amended): for a store with capacity `N > 0` whose keys are all nonempty
strings, every `set` keeps the entry count at most `N`, and inserting `N + 1`
distinct nonempty keys into an empty store leaves exactly `N` entries with the
first-inserted key absent and the remaining `N` present.  (The nonemptiness
caveat is forced by the `if (firstKey)` truthiness guard in `set`: an
empty-string oldest key is never evicted, see the counterexample.)
-/
theorem c1_capacity_amended (N : Nat) (st : CacheState) (key : String)
    (v : CVal) (now : Int) (ks : List String) (hN : 0 < N) :
    (st.length ≤ N → (∀ p ∈ st, p.1 ≠ "") →
      (cacheSet N st key v now).length ≤ N)
    ∧ (ks.Nodup → (∀ k ∈ ks, k ≠ "") → ks.length = N + 1 →
        (ks.foldl (fun s k => cacheSet N s k v now) []).length = N
        ∧ (∀ k0, ks.head? = some k0 →
            lookupKey (ks.foldl (fun s k => cacheSet N s k v now) []) k0 = none)
        ∧ ∀ k ∈ ks.drop 1,
            (lookupKey (ks.foldl (fun s k => cacheSet N s k v now) []) k).isSome) := by
  constructor
  · intro hlen hkeys
    by_cases hfull : N ≤ st.length
    · have hlen' : st.length = N := le_antisymm hlen hfull
      rcases st with _ | ⟨⟨k0, it0⟩, rest⟩
      · simp at hlen'; omega
      have hk0 : k0 ≠ "" := hkeys (k0, it0) (by simp)
      rw [cacheSet_full_evict N k0 it0 rest key v now hfull hk0]
      have := mapSet_length_le rest key (⟨v, now⟩ : CacheItem)
      have hr : rest.length + 1 = N := by simpa using hlen'
      omega
    · rw [cacheSet_not_full N st key v now hfull]
      have := mapSet_length_le st key (⟨v, now⟩ : CacheItem)
      omega
  · intro hnd hne hlen
    have hkeys := foldl_cacheSet_overflow N v now ks hN hnd hne hlen
    refine ⟨?_, ?_, ?_⟩
    · rw [← List.length_map _ Prod.fst, hkeys, List.length_drop, hlen]
      omega
    · intro k0 hk0
      rcases ks with _ | ⟨a, tl⟩
      · simp at hk0
      simp only [List.head?_cons, Option.some.injEq] at hk0
      subst hk0
      rw [lookupKey_eq_none_iff, hkeys]
      simp only [List.drop_one, List.tail_cons]
      exact (List.nodup_cons.mp hnd).1
    · intro k hk
      rw [lookupKey_isSome_iff, hkeys]
      exact hk

/--
C1 (counterexample): the original claim asserts `|entries| <= N` after every
`set` for every capacity-`N > 0` store.  With capacity 1, setting key `""`
and then key `"x"` leaves 2 entries: when the store is full the code runs
`if (firstKey) this.cache.delete(firstKey)` and the empty-string first key is
JS-falsy, so nothing is evicted and the bound `N = 1` is exceeded; the
first-inserted key `""` is also still present after inserting `N + 1 = 2`
distinct keys.
-/
theorem c1_capacity_counterexample :
    (cacheSet 1 (cacheSet 1 [] "" CVal.null 0) "x" CVal.null 1).length = 2
    ∧ (lookupKey (cacheSet 1 (cacheSet 1 [] "" CVal.null 0) "x" CVal.null 1)
        "").isSome := by
  constructor <;> rfl

/-- C1 (witness): the amended theorem applied at capacity 1, an empty store,
and the two distinct nonempty keys `"a"`, `"b"`. -/
theorem c1_capacity_witness :
    (cacheSet 1 [] "x" CVal.null 0).length ≤ 1
    ∧ (["a", "b"].foldl (fun s k => cacheSet 1 s k CVal.null 0) []).length = 1
    ∧ lookupKey (["a", "b"].foldl (fun s k => cacheSet 1 s k CVal.null 0) [])
        "a" = none
    ∧ (lookupKey (["a", "b"].foldl (fun s k => cacheSet 1 s k CVal.null 0) [])
        "b").isSome := by
  have h := c1_capacity_amended 1 [] "x" CVal.null 0 ["a", "b"] (by decide)
  have h2 := h.2 (by decide) (by decide) rfl
  exact ⟨h.1 (by decide) (by decide), h2.1, h2.2.1 "a" rfl, h2.2.2 "b" (by decide)⟩

/--
C10 (amended): when the store is full, `set(key, value)` deletes the
oldest-inserted entry before writing provided the oldest key is a nonempty
string — even when `key` is already present — so overwriting an existing
non-oldest key in a full store evicts the unrelated oldest entry and shrinks
the store by one.  (The nonemptiness proviso is forced by the `if (firstKey)`
truthiness guard, see the counterexample.)
-/
theorem c10_full_set_amended (N : Nat) (k0 key : String) (it0 : CacheItem)
    (rest : CacheState) (v : CVal) (now : Int)
    (hfull : ((k0, it0) :: rest).length = N) (hk0 : k0 ≠ "")
    (hmem : (lookupKey rest key).isSome) (hne : key ≠ k0)
    (huniq : lookupKey rest k0 = none) :
    (cacheSet N ((k0, it0) :: rest) key v now).length = N - 1
    ∧ lookupKey (cacheSet N ((k0, it0) :: rest) key v now) k0 = none
    ∧ lookupKey (cacheSet N ((k0, it0) :: rest) key v now) key
        = some ⟨v, now⟩ := by
  have hfull' : N ≤ ((k0, it0) :: rest).length := le_of_eq hfull.symm
  rw [cacheSet_full_evict N k0 it0 rest key v now hfull' hk0]
  refine ⟨?_, ?_, ?_⟩
  · rw [mapSet_length_of_mem rest key _ hmem]
    simp only [List.length_cons] at hfull
    omega
  · rw [lookupKey_mapSet_ne rest key k0 _ hne]
    exact huniq
  · exact lookupKey_mapSet_self rest key _

/--
C10 (counterexample): the claim says every `set` on a full store deletes the
oldest-inserted entry, even when the written key is already present.  In the
full capacity-2 store whose oldest key is the empty string, overwriting the
existing key `"b"` deletes nothing (`if (firstKey)` is falsy for `""`): the
oldest entry survives and the entry count stays 2 instead of dropping to 1.
-/
theorem c10_full_set_counterexample :
    (cacheSet 2 [("", ⟨CVal.null, 0⟩), ("b", ⟨CVal.null, 0⟩)] "b"
      (CVal.atom true 1) 5).length = 2
    ∧ (lookupKey (cacheSet 2 [("", ⟨CVal.null, 0⟩), ("b", ⟨CVal.null, 0⟩)] "b"
        (CVal.atom true 1) 5) "").isSome := by
  constructor <;> rfl

/-- C10 (witness): the amended theorem applied to the full capacity-2 store
`[("a", _), ("b", _)]`, overwriting the existing non-oldest key `"b"`. -/
theorem c10_full_set_witness :
    (cacheSet 2 [("a", ⟨CVal.null, 0⟩), ("b", ⟨CVal.null, 0⟩)] "b"
      (CVal.atom true 7) 9).length = 1
    ∧ lookupKey (cacheSet 2 [("a", ⟨CVal.null, 0⟩), ("b", ⟨CVal.null, 0⟩)] "b"
        (CVal.atom true 7) 9) "a" = none
    ∧ lookupKey (cacheSet 2 [("a", ⟨CVal.null, 0⟩), ("b", ⟨CVal.null, 0⟩)] "b"
        (CVal.atom true 7) 9) "b" = some ⟨CVal.atom true 7, 9⟩ :=
  c10_full_set_amended 2 "a" "b" ⟨CVal.null, 0⟩ [("b", ⟨CVal.null, 0⟩)]
    (CVal.atom true 7) 9 rfl (by decide) rfl (by decide) rfl

/--
C2 (amended): `get(key, ttlMs?)` resolves the effective TTL as `ttlMs` when a
nonzero `ttlMs` is supplied, and as the store default otherwise — including
when `ttlMs = 0` is supplied, because the resolution is the JS expression
`ttl || this.defaultTtl` and `0` is falsy.  With that resolution the rest of
the claim holds: a nonpositive effective TTL never expires the entry (the
stored value is returned regardless of age), and when the entry's age
strictly exceeds a positive effective TTL the entry is deleted and Absent
(JS null) is returned.
-/
theorem c2_get_ttl_amended (defaultTtl : Int) (st : CacheState) (key : String)
    (now t : Int) (item : CacheItem) (hit : lookupKey st key = some item) :
    (cacheGet defaultTtl st key (some 0) now = cacheGet defaultTtl st key none now)
    ∧ (t ≠ 0 → t ≤ 0 → cacheGet defaultTtl st key (some t) now = (item.data, st))
    ∧ (t ≠ 0 → 0 < t → t < now - item.timestamp →
        cacheGet defaultTtl st key (some t) now = (.null, mapDelete st key))
    ∧ (t ≠ 0 → 0 < t → now - item.timestamp ≤ t →
        cacheGet defaultTtl st key (some t) now = (item.data, st))
    ∧ (defaultTtl ≤ 0 → cacheGet defaultTtl st key none now = (item.data, st)) := by
  refine ⟨?_, ?_, ?_, ?_, ?_⟩
  · simp [cacheGet, jsOrTtl]
  · intro ht ht0
    simp only [cacheGet, hit, jsOrTtl, if_neg ht]
    rw [if_neg]
    rintro ⟨h1, -⟩
    omega
  · intro ht ht0 hage
    simp only [cacheGet, hit, jsOrTtl, if_neg ht]
    rw [if_pos ⟨ht0, hage⟩]
  · intro ht ht0 hage
    simp only [cacheGet, hit, jsOrTtl, if_neg ht]
    rw [if_neg]
    rintro ⟨-, h2⟩
    omega
  · intro hd
    simp only [cacheGet, hit, jsOrTtl]
    rw [if_neg]
    rintro ⟨h1, -⟩
    omega

/--
C2 (counterexample): the claim says the effective TTL is `ttlMs` whenever the
caller supplies it, and that an effective TTL `<= 0` never expires the entry.
Supplying `ttlMs = 0` to a store whose default TTL is 10 on an entry of age
20 should therefore return the stored value; the code instead falls back to
the default (`ttl || this.defaultTtl` with falsy `0`), sees `20 > 10`,
deletes the entry and returns Absent (JS null).
-/
theorem c2_get_ttl_counterexample :
    (cacheGet 10 [("k", ⟨CVal.atom true 7, 0⟩)] "k" (some 0) 20).1 = CVal.null
    ∧ lookupKey (cacheGet 10 [("k", ⟨CVal.atom true 7, 0⟩)] "k" (some 0) 20).2
        "k" = none := by
  constructor <;> rfl

/-- C2 (witness): the amended theorem applied to a concrete store, once with
supplied TTL 5 and age 20 (expiry) and once with supplied TTL -3 (never
expires by age). -/
theorem c2_get_ttl_witness :
    cacheGet 10 [("k", ⟨CVal.atom true 7, 0⟩)] "k" (some 5) 20
      = (CVal.null, [])
    ∧ cacheGet 10 [("k", ⟨CVal.atom true 7, 0⟩)] "k" (some (-3)) 20
      = (CVal.atom true 7, [("k", ⟨CVal.atom true 7, 0⟩)]) := by
  have h1 := c2_get_ttl_amended 10 [("k", ⟨CVal.atom true 7, 0⟩)] "k" 20 5
    ⟨CVal.atom true 7, 0⟩ rfl
  have h2 := c2_get_ttl_amended 10 [("k", ⟨CVal.atom true 7, 0⟩)] "k" 20 (-3)
    ⟨CVal.atom true 7, 0⟩ rfl
  exact ⟨h1.2.2.1 (by decide) (by decide) (by decide),
    h2.2.1 (by decide) (by decide)⟩

/-! ### History ledger (appendHourlySnapshot / getHistory) -/

/-- The hour bucket `Math.floor(timestampMs / 3600000)` (floor division, as
`Math.floor` on the float quotient). -/
def hourBucket (t : Int) : Int := Int.fdiv t 3600000

/-- The series the history code reads from an entry: the stored array if the
entry exists and `Array.isArray(existing.data)`, else the empty history. -/
def getSeries (st : CacheState) (key : String) : List (Int × CVal) :=
  match lookupKey st key with
  | some item =>
      match item.data with
      | .arr pts => pts
      | _ => []
  | none => []

/-- `historyMaxEntries = 24 * 7` from the CacheManager field. -/
def historyMaxEntries : Nat := 24 * 7

/--
`CacheManager.appendHourlySnapshot` (src/db/client.ts lines 199-230): read
the existing series, overwrite the last point when it falls in the same hour
bucket as the new snapshot (else push), trim to the most recent
`historyMaxEntries` by `slice(length - historyMaxEntries)`, and store the
series back (a direct `Map.set`, no capacity eviction and no TTL).
-/
def appendHourlySnapshot (st : CacheState) (key : String) (snap : Int × CVal)
    (now : Int) : CacheState :=
  let history := getSeries st key
  let history2 :=
    match history.getLast? with
    | some last =>
        if hourBucket last.1 = hourBucket snap.1 then history.dropLast ++ [snap]
        else history ++ [snap]
    | none => history ++ [snap]
  let history3 :=
    if historyMaxEntries < history2.length then
      history2.drop (history2.length - historyMaxEntries)
    else history2
  mapSet st key ⟨.arr history3, now⟩

/--
`CacheManager.getHistory` (src/db/client.ts lines 236-257): empty list when
the key is missing or its data is not an array; otherwise filter to
`timestamp >= start` and `timestamp <= end` (each bound only when supplied)
and sort ascending by timestamp (`sort((a, b) => a.timestamp - b.timestamp)`,
modelled by a stable merge sort as mandated for JS `Array.sort`).
-/
def getHistory (st : CacheState) (key : String) (startMs endMs : Option Int) :
    List (Int × CVal) :=
  match lookupKey st key with
  | some item =>
      match item.data with
      | .arr pts =>
          let h1 := match startMs with
            | some s => pts.filter (fun h : Int × CVal => decide (s ≤ h.1))
            | none => pts
          let h2 := match endMs with
            | some e => h1.filter (fun h : Int × CVal => decide (h.1 ≤ e))
            | none => h1
          h2.mergeSort (fun a b => decide (a.1 ≤ b.1))
      | _ => []
  | none => []

theorem hourBucket_mono {a b : Int} (h : a ≤ b) : hourBucket a ≤ hourBucket b := by
  unfold hourBucket
  rw [Int.fdiv_eq_ediv a (by norm_num), Int.fdiv_eq_ediv b (by norm_num)]
  exact Int.ediv_le_ediv (by norm_num) h

theorem lt_of_hourBucket_lt {a b : Int} (h : hourBucket a < hourBucket b) :
    a < b := by
  by_contra hab
  push_neg at hab
  exact absurd (hourBucket_mono hab) (not_le.mpr h)

theorem getSeries_mapSet_arr (st : CacheState) (key : String)
    (pts : List (Int × CVal)) (now : Int) :
    getSeries (mapSet st key ⟨.arr pts, now⟩) key = pts := by
  simp [getSeries, lookupKey_mapSet_self]

/-- The trimming step of `appendHourlySnapshot`:
`slice(length - historyMaxEntries)` once the cap is exceeded. -/
def trimHistory (l : List (Int × CVal)) : List (Int × CVal) :=
  if historyMaxEntries < l.length then l.drop (l.length - historyMaxEntries)
  else l

/-- The series stored by one `appendHourlySnapshot`, written as a function of
the previously stored series. -/
theorem getSeries_appendHourlySnapshot (st : CacheState) (key : String)
    (snap : Int × CVal) (now : Int) :
    getSeries (appendHourlySnapshot st key snap now) key =
      trimHistory
      (match (getSeries st key).getLast? with
        | some last =>
            if hourBucket last.1 = hourBucket snap.1 then
              (getSeries st key).dropLast ++ [snap]
            else getSeries st key ++ [snap]
        | none => getSeries st key ++ [snap]) := by
  unfold appendHourlySnapshot trimHistory
  exact getSeries_mapSet_arr st key _ now

theorem trimHistory_sublist (l : List (Int × CVal)) :
    List.Sublist (trimHistory l) l := by
  unfold trimHistory
  split
  · exact List.drop_sublist _ l
  · exact List.Sublist.refl l

theorem trimHistory_small (l : List (Int × CVal))
    (h : l.length ≤ historyMaxEntries) : trimHistory l = l := by
  unfold trimHistory
  rw [if_neg (not_lt.mpr h)]

/-- One `appendHourlySnapshot` of a snapshot at least as recent as every
stored point preserves strictly increasing hour buckets, and every stored
point stays no more recent than the snapshot. -/
theorem appendHourlySnapshot_invariant (st : CacheState) (key : String)
    (snap : Int × CVal) (now : Int)
    (hinv : List.Pairwise (fun p q : Int × CVal => hourBucket p.1 < hourBucket q.1)
      (getSeries st key))
    (hlast : ∀ p ∈ getSeries st key, p.1 ≤ snap.1) :
    List.Pairwise (fun p q : Int × CVal => hourBucket p.1 < hourBucket q.1)
      (getSeries (appendHourlySnapshot st key snap now) key)
    ∧ ∀ p ∈ getSeries (appendHourlySnapshot st key snap now) key,
        p.1 ≤ snap.1 := by
  rw [getSeries_appendHourlySnapshot]
  rcases List.eq_nil_or_concat (getSeries st key) with hnil | ⟨h1, la, hcat⟩
  · rw [hnil]
    simp only [List.getLast?_nil, List.nil_append]
    rw [trimHistory_small _ (by simp [historyMaxEntries])]
    refine ⟨List.pairwise_singleton _ _, ?_⟩
    intro p hp
    rw [List.mem_singleton] at hp
    subst hp
    exact le_refl _
  · rw [List.concat_eq_append] at hcat
    rw [hcat] at hinv hlast ⊢
    rw [List.getLast?_concat]
    simp only [List.dropLast_concat]
    have hparts := List.pairwise_append.mp hinv
    have hlab : hourBucket la.1 ≤ hourBucket snap.1 :=
      hourBucket_mono (hlast la (by simp))
    by_cases hb : hourBucket la.1 = hourBucket snap.1
    · rw [if_pos hb]
      constructor
      · refine List.Pairwise.sublist (trimHistory_sublist _) ?_
        refine List.pairwise_append.mpr ⟨hparts.1, List.pairwise_singleton _ _, ?_⟩
        intro a ha b hbmem
        rw [List.mem_singleton] at hbmem
        subst hbmem
        have := hparts.2.2 a ha la (by simp)
        omega
      · intro p hp
        have hp2 := (trimHistory_sublist _).subset hp
        rcases List.mem_append.mp hp2 with hmem | hmem
        · exact hlast p (List.mem_append.mpr (Or.inl hmem))
        · rw [List.mem_singleton] at hmem
          subst hmem
          exact le_refl _
    · rw [if_neg hb]
      have hlt : hourBucket la.1 < hourBucket snap.1 := lt_of_le_of_ne hlab hb
      constructor
      · refine List.Pairwise.sublist (trimHistory_sublist _) ?_
        refine List.pairwise_append.mpr ⟨hinv, List.pairwise_singleton _ _, ?_⟩
        intro a ha b hbmem
        rw [List.mem_singleton] at hbmem
        subst hbmem
        rcases List.mem_append.mp ha with hmem | hmem
        · have := hparts.2.2 a hmem la (by simp)
          omega
        · rw [List.mem_singleton] at hmem
          subst hmem
          exact hlt
      · intro p hp
        have hp2 := (trimHistory_sublist _).subset hp
        rcases List.mem_append.mp hp2 with hmem | hmem
        · exact hlast p hmem
        · rw [List.mem_singleton] at hmem
          subst hmem
          exact le_refl _


/-- Folding timestamp-sorted appends preserves strictly increasing hour
buckets of the stored series. -/
theorem foldl_appendHourlySnapshot_invariant (key : String) (now : Int) :
    ∀ (pts : List (Int × CVal)) (st : CacheState),
    List.Pairwise (fun p q : Int × CVal => p.1 ≤ q.1) pts →
    List.Pairwise (fun p q : Int × CVal => hourBucket p.1 < hourBucket q.1)
      (getSeries st key) →
    (∀ p ∈ getSeries st key, ∀ q ∈ pts, p.1 ≤ q.1) →
    List.Pairwise (fun p q : Int × CVal => hourBucket p.1 < hourBucket q.1)
      (getSeries (pts.foldl (fun s p => appendHourlySnapshot s key p now) st)
        key) := by
  intro pts
  induction pts with
  | nil => intro st _ hinv _; simpa using hinv
  | cons p rest ih =>
      intro st hsorted hinv hcross
      rw [List.foldl_cons]
      have hstep := appendHourlySnapshot_invariant st key p now hinv
        (fun y hy => hcross y hy p (by simp))
      apply ih _ (List.pairwise_cons.mp hsorted).2 hstep.1
      intro x hx q hq
      have hxp : x.1 ≤ p.1 := hstep.2 x hx
      have hpq : p.1 ≤ q.1 := (List.pairwise_cons.mp hsorted).1 q hq
      omega

/--
C4 (amended): the stored history has at most one point per distinct
hour-bucket for every sequence of appends whose timestamps are
non-decreasing (the deduplication compares the new point only against the
*last* stored point, so out-of-order appends can retain two points in one
bucket — see the counterexample); and whenever the appended point falls in
the same hour-bucket as the last stored point, it replaces that last point,
carrying the later value.
-/
theorem c4_history_bucket_amended (key : String) (now : Int)
    (pts : List (Int × CVal)) (st : CacheState) (hist1 : List (Int × CVal))
    (t s : Int) (v w : CVal) :
    (List.Pairwise (fun p q : Int × CVal => p.1 ≤ q.1) pts →
      ((getSeries (pts.foldl (fun st0 p => appendHourlySnapshot st0 key p now)
          []) key).map (fun p => hourBucket p.1)).Nodup)
    ∧ (getSeries st key = hist1 ++ [(t, v)] → hourBucket s = hourBucket t →
        (hist1 ++ [(t, v)]).length ≤ historyMaxEntries →
        getSeries (appendHourlySnapshot st key (s, w) now) key
          = hist1 ++ [(s, w)]) := by
  constructor
  · intro hsorted
    have hp := foldl_appendHourlySnapshot_invariant key now pts [] hsorted
      (by simp [getSeries, lookupKey]) (by simp [getSeries, lookupKey])
    have h2 : List.Pairwise Ne
        ((getSeries (pts.foldl (fun st0 p => appendHourlySnapshot st0 key p now)
          []) key).map (fun p => hourBucket p.1)) :=
      List.pairwise_map.mpr (hp.imp (fun h => ne_of_lt h))
    exact h2
  · intro hser hbucket hlen
    rw [getSeries_appendHourlySnapshot, hser, List.getLast?_concat]
    simp only
    rw [if_pos (by simpa using hbucket.symm), List.dropLast_concat]
    exact trimHistory_small _ (by simpa using hlen)

/--
C4 (counterexample): appending points with timestamps 0 ms, 3600000 ms and
1 ms (hour-buckets 0, 1, 0) retains all three, because only the last stored
point is checked for a bucket collision: the final series has two points in
hour-bucket 0, refuting "at most one point per distinct hour-bucket" for
arbitrary append sequences.
-/
theorem c4_history_bucket_counterexample :
    ((getSeries ([((0 : Int), CVal.null), (3600000, CVal.null),
        (1, CVal.null)].foldl (fun st p => appendHourlySnapshot st "h" p 0) [])
      "h").map (fun p => hourBucket p.1)) = [0, 1, 0]
    ∧ ¬ ((getSeries ([((0 : Int), CVal.null), (3600000, CVal.null),
        (1, CVal.null)].foldl (fun st p => appendHourlySnapshot st "h" p 0) [])
      "h").map (fun p => hourBucket p.1)).Nodup := by
  constructor <;> decide

/-- C4 (witness): the amended theorem applied to the sorted two-append
sequence at 0 ms and 600000 ms (same hour bucket): the buckets are distinct
after folding, and the second append overwrites the first, leaving the later
value. -/
theorem c4_history_bucket_witness :
    ((getSeries ([((0 : Int), CVal.atom true 1), (600000, CVal.atom true 2)].foldl
        (fun st p => appendHourlySnapshot st "h" p 0) []) "h").map
      (fun p => hourBucket p.1)).Nodup
    ∧ getSeries (appendHourlySnapshot
        (appendHourlySnapshot [] "h" (0, CVal.atom true 1) 0) "h"
        (600000, CVal.atom true 2) 0) "h" = [(600000, CVal.atom true 2)] := by
  have h := c4_history_bucket_amended "h" 0
    [((0 : Int), CVal.atom true 1), (600000, CVal.atom true 2)]
    (appendHourlySnapshot [] "h" (0, CVal.atom true 1) 0) [] 0 600000
    (CVal.atom true 1) (CVal.atom true 2)
  exact ⟨h.1 (by decide), h.2 rfl (by decide) (by decide)⟩

theorem trimHistory_length_le (l : List (Int × CVal)) :
    (trimHistory l).length ≤ historyMaxEntries := by
  unfold trimHistory
  by_cases h : historyMaxEntries < l.length
  · rw [if_pos h, List.length_drop]
    omega
  · rw [if_neg h]
    omega

/-- Every single `appendHourlySnapshot`, from any prior state, leaves at most
`historyMaxEntries` stored points. -/
theorem appendHourlySnapshot_length_le (st : CacheState) (key : String)
    (snap : Int × CVal) (now : Int) :
    (getSeries (appendHourlySnapshot st key snap now) key).length
      ≤ historyMaxEntries := by
  rw [getSeries_appendHourlySnapshot]
  exact trimHistory_length_le _

/-- Folding appends with strictly increasing hour buckets from an empty store
stores exactly the suffix of the appended points of length
`historyMaxEntries`. -/
theorem foldl_appendHourlySnapshot_suffix (key : String) (now : Int)
    (pts : List (Int × CVal))
    (h : List.Pairwise (fun p q : Int × CVal => hourBucket p.1 < hourBucket q.1)
      pts) :
    getSeries (pts.foldl (fun s p => appendHourlySnapshot s key p now) []) key
      = pts.drop (pts.length - historyMaxEntries) := by
  have hmax : historyMaxEntries = 168 := rfl
  induction pts using List.reverseRecOn with
  | nil => simp [getSeries, lookupKey]
  | append_singleton pts p ih =>
      have hparts := List.pairwise_append.mp h
      have hih := ih hparts.1
      rw [List.foldl_append, List.foldl_cons, List.foldl_nil,
        getSeries_appendHourlySnapshot, hih]
      rcases List.eq_nil_or_concat pts with rfl | ⟨pts1, q, hcat⟩
      · simp only [List.length_nil, List.nil_append, List.drop_nil,
          List.getLast?_nil]
        rw [trimHistory_small _ (by simp [hmax])]
        rw [hmax]
        norm_num
      · rw [List.concat_eq_append] at hcat
        subst hcat
        have hqp : hourBucket q.1 < hourBucket p.1 :=
          hparts.2.2 q (by simp) p (by simp)
        have hn1 : (pts1 ++ [q]).length = pts1.length + 1 := by simp
        have hk1 : (pts1 ++ [q]).length - historyMaxEntries ≤ pts1.length := by
          rw [hn1, hmax]
          omega
        rw [List.drop_append_of_le_length hk1, List.getLast?_concat]
        simp only
        rw [if_neg (fun hbeq => absurd hbeq (ne_of_lt hqp))]
        have hL : (pts1.drop ((pts1 ++ [q]).length - historyMaxEntries) ++ [q])
            ++ [p]
            = ((pts1 ++ [q]) ++ [p]).drop ((pts1 ++ [q]).length
                - historyMaxEntries) := by
          rw [List.drop_append_of_le_length (by omega),
            List.drop_append_of_le_length hk1]
        rw [hL]
        unfold trimHistory
        by_cases hcase : historyMaxEntries
            < (((pts1 ++ [q]) ++ [p]).drop ((pts1 ++ [q]).length
                - historyMaxEntries)).length
        · rw [if_pos hcase, List.drop_drop]
          refine congrArg (fun n => List.drop n ((pts1 ++ [q]) ++ [p])) ?_
          rw [List.length_drop] at hcase ⊢
          simp only [List.length_append, List.length_cons,
            List.length_nil] at hcase ⊢
          omega
        · rw [if_neg hcase]
          refine congrArg (fun n => List.drop n ((pts1 ++ [q]) ++ [p])) ?_
          rw [List.length_drop] at hcase
          simp only [List.length_append, List.length_cons,
            List.length_nil] at hcase ⊢
          omega


/--
C5 (amended): after every `appendPoint` call — from any prior state — the
stored series has at most `maxPoints = 168` points, and when an append would
exceed the cap exactly the storage-order suffix of length 168 is kept.  For
appends whose hour buckets are strictly increasing (the scheduled hourly
collection in chronological order), the kept suffix consists exactly of the
168 most recent points, so appending `n >= 168` chronological points from an
empty store (in particular 200 beyond the cap) leaves exactly 168 points,
all more recent than every dropped point.  (For out-of-order appends the
storage-order suffix need not be the most recent points — see the
counterexample.)
-/
theorem c5_history_trim_amended (st : CacheState) (key : String)
    (snap : Int × CVal) (now : Int) (pts : List (Int × CVal)) :
    (getSeries (appendHourlySnapshot st key snap now) key).length
      ≤ historyMaxEntries
    ∧ (List.Pairwise (fun p q : Int × CVal => hourBucket p.1 < hourBucket q.1)
        pts →
      historyMaxEntries ≤ pts.length →
      getSeries (pts.foldl (fun s p => appendHourlySnapshot s key p now) []) key
          = pts.drop (pts.length - historyMaxEntries)
      ∧ (getSeries (pts.foldl (fun s p => appendHourlySnapshot s key p now) [])
          key).length = historyMaxEntries
      ∧ ∀ d ∈ pts.take (pts.length - historyMaxEntries),
          ∀ kp ∈ pts.drop (pts.length - historyMaxEntries), d.1 < kp.1) := by
  refine ⟨appendHourlySnapshot_length_le st key snap now, ?_⟩
  intro hsorted hlen
  have hsuf := foldl_appendHourlySnapshot_suffix key now pts hsorted
  refine ⟨hsuf, ?_, ?_⟩
  · rw [hsuf, List.length_drop]
    omega
  · intro d hd kp hkp
    have hsplit := List.take_append_drop (pts.length - historyMaxEntries) pts
    rw [← hsplit] at hsorted
    exact lt_of_hourBucket_lt ((List.pairwise_append.mp hsorted).2.2 d hd kp hkp)

set_option maxRecDepth 10000 in
/--
C5 (counterexample): the claim promises that whenever the cap is exceeded the
168 *most recent* points are kept and the *oldest* dropped.  Appending a
point in hour-bucket 1000 (timestamp 3600000000 ms) first and then 169
chronological points in buckets 0..168 trims by storage order: the final 168
points start at timestamp 3600000 ms while the dropped first append
(timestamp 3600000000 ms) is more recent than every kept point except none —
the kept points are not the most recent ones.
-/
theorem c5_history_trim_counterexample :
    (getSeries ((((3600000000 : Int), CVal.null) ::
        (List.range 169).map (fun i => (Int.ofNat i * 3600000, CVal.null))).foldl
        (fun st p => appendHourlySnapshot st "h" p 0) []) "h").length = 168
    ∧ ((getSeries ((((3600000000 : Int), CVal.null) ::
        (List.range 169).map (fun i => (Int.ofNat i * 3600000, CVal.null))).foldl
        (fun st p => appendHourlySnapshot st "h" p 0) []) "h").map
      Prod.fst).head? = some 3600000
    ∧ (3600000000 : Int) ∉ ((getSeries ((((3600000000 : Int), CVal.null) ::
        (List.range 169).map (fun i => (Int.ofNat i * 3600000, CVal.null))).foldl
        (fun st p => appendHourlySnapshot st "h" p 0) []) "h").map
      Prod.fst) := by
  refine ⟨?_, ?_, ?_⟩ <;> decide

set_option maxRecDepth 10000 in
/-- C5 (witness): the amended theorem applied to one append on the empty
store and to 169 chronological points in buckets 0..168: exactly the last
168 are kept and every dropped point is older than every kept point. -/
theorem c5_history_trim_witness :
    (getSeries (appendHourlySnapshot [] "h" (0, CVal.null) 0) "h").length
      ≤ historyMaxEntries
    ∧ getSeries (((List.range 169).map
        (fun i => (Int.ofNat i * 3600000, CVal.null))).foldl
        (fun s p => appendHourlySnapshot s "h" p 0) []) "h"
      = ((List.range 169).map (fun i => (Int.ofNat i * 3600000, CVal.null))).drop 1
    ∧ (getSeries (((List.range 169).map
        (fun i => (Int.ofNat i * 3600000, CVal.null))).foldl
        (fun s p => appendHourlySnapshot s "h" p 0) []) "h").length
      = historyMaxEntries := by
  have hb : ∀ i : Nat, hourBucket (Int.ofNat i * 3600000) = Int.ofNat i :=
    fun i => by
    unfold hourBucket
    exact Int.mul_fdiv_cancel (Int.ofNat i)
      (show (3600000 : Int) ≠ 0 by norm_num)
  have hsorted : List.Pairwise
      (fun p q : Int × CVal => hourBucket p.1 < hourBucket q.1)
      ((List.range 169).map (fun i => (Int.ofNat i * 3600000, CVal.null))) := by
    refine List.Pairwise.map _ ?_ (List.pairwise_lt_range 169)
    intro i j hij
    show hourBucket (Int.ofNat i * 3600000) < hourBucket (Int.ofNat j * 3600000)
    rw [hb i, hb j]
    exact Int.ofNat_lt.mpr hij
  have h := (c5_history_trim_amended [] "h" (0, CVal.null) 0
    ((List.range 169).map (fun i => (Int.ofNat i * 3600000, CVal.null)))).2
    hsorted (by decide)
  exact ⟨c5_history_trim_amended [] "h" (0, CVal.null) 0 [] |>.1, h.1, h.2.1⟩


/-- The timestamp comparator `(a, b) => a.timestamp - b.timestamp` of
`getHistory` sorts ascending by timestamp: the merge sort it models always
yields a timestamp-sorted list. -/
theorem mergeSort_ts_sorted (l : List (Int × CVal)) :
    List.Pairwise (fun a b : Int × CVal => a.1 ≤ b.1)
      (l.mergeSort (fun a b => decide (a.1 ≤ b.1))) := by
  have htrans : ∀ (a b c : Int × CVal), decide (a.1 ≤ b.1) = true →
      decide (b.1 ≤ c.1) = true → decide (a.1 ≤ c.1) = true := by
    intro a b c h1 h2
    simp only [decide_eq_true_eq] at h1 h2 ⊢
    omega
  have htotal : ∀ (a b : Int × CVal),
      (decide (a.1 ≤ b.1) || decide (b.1 ≤ a.1)) = true := by
    intro a b
    simp only [Bool.or_eq_true, decide_eq_true_eq]
    exact Int.le_total a.1 b.1
  exact (List.sorted_mergeSort htrans htotal l).imp
    (fun h => of_decide_eq_true h)

/--
C6 (confirmed): `getHistory(key, startMs?, endMs?)` returns an empty sequence
(a total function — never an error or Absent) when the key is missing or its
entry holds no array; otherwise it returns exactly the stored points
satisfying `startMs <= timestamp` and `timestamp <= endMs` (each bound
applied only when supplied, both inclusive), sorted ascending by timestamp.
-/
theorem c6_getHistory_range (st : CacheState) (key : String)
    (startMs endMs : Option Int) :
    (lookupKey st key = none → getHistory st key startMs endMs = [])
    ∧ (∀ item, lookupKey st key = some item →
        (∀ pts, item.data ≠ CVal.arr pts) →
        getHistory st key startMs endMs = [])
    ∧ ∀ item pts, lookupKey st key = some item → item.data = CVal.arr pts →
        (getHistory st key startMs endMs).Perm
          (pts.filter (fun p : Int × CVal =>
            (match startMs with | some s => decide (s ≤ p.1) | none => true)
            && (match endMs with | some e => decide (p.1 ≤ e) | none => true)))
        ∧ List.Pairwise (fun a b : Int × CVal => a.1 ≤ b.1)
            (getHistory st key startMs endMs) := by
  refine ⟨?_, ?_, ?_⟩
  · intro h
    simp [getHistory, h]
  · intro item h hne
    cases hd : item.data with
    | arr pts => exact absurd hd (hne pts)
    | null => simp [getHistory, h, hd]
    | atom t n => simp [getHistory, h, hd]
    | obj t v => simp [getHistory, h, hd]
  · intro item pts h hd
    rcases startMs with _ | s <;> rcases endMs with _ | e
    · have hu : getHistory st key none none
          = pts.mergeSort (fun a b => decide (a.1 ≤ b.1)) := by
        simp [getHistory, h, hd]
      rw [hu]
      refine ⟨(List.mergeSort_perm _ _).trans ?_, mergeSort_ts_sorted pts⟩
      simp
    · have hu : getHistory st key none (some e)
          = (pts.filter (fun p : Int × CVal => decide (p.1 ≤ e))).mergeSort
              (fun a b => decide (a.1 ≤ b.1)) := by
        simp [getHistory, h, hd]
      rw [hu]
      refine ⟨(List.mergeSort_perm _ _).trans ?_, mergeSort_ts_sorted _⟩
      simp
    · have hu : getHistory st key (some s) none
          = (pts.filter (fun p : Int × CVal => decide (s ≤ p.1))).mergeSort
              (fun a b => decide (a.1 ≤ b.1)) := by
        simp [getHistory, h, hd]
      rw [hu]
      refine ⟨(List.mergeSort_perm _ _).trans ?_, mergeSort_ts_sorted _⟩
      simp
    · have hu : getHistory st key (some s) (some e)
          = ((pts.filter (fun p : Int × CVal => decide (s ≤ p.1))).filter
              (fun p : Int × CVal => decide (p.1 ≤ e))).mergeSort
              (fun a b => decide (a.1 ≤ b.1)) := by
        simp [getHistory, h, hd]
      rw [hu]
      refine ⟨(List.mergeSort_perm _ _).trans ?_, mergeSort_ts_sorted _⟩
      rw [List.filter_filter]
      refine List.Perm.of_eq (List.filter_congr ?_)
      intro a _
      exact Bool.and_comm _ _

/-- C6 (witness): the theorem applied to a concrete three-point series with
both bounds supplied, and to the empty store. -/
theorem c6_getHistory_witness :
    (getHistory [("h", ⟨CVal.arr [(5, CVal.null), (1, CVal.null),
        (9, CVal.null)], 0⟩)] "h" (some 2) (some 9)).Perm
      [(5, CVal.null), (9, CVal.null)]
    ∧ List.Pairwise (fun a b : Int × CVal => a.1 ≤ b.1)
      (getHistory [("h", ⟨CVal.arr [(5, CVal.null), (1, CVal.null),
        (9, CVal.null)], 0⟩)] "h" (some 2) (some 9))
    ∧ getHistory [] "h" none none = [] := by
  have h := c6_getHistory_range [("h", ⟨CVal.arr [(5, CVal.null),
    (1, CVal.null), (9, CVal.null)], 0⟩)] "h" (some 2) (some 9)
  have h0 := c6_getHistory_range [] "h" none none
  have h3 := h.2.2 ⟨CVal.arr [(5, CVal.null), (1, CVal.null),
    (9, CVal.null)], 0⟩ [(5, CVal.null), (1, CVal.null), (9, CVal.null)]
    rfl rfl
  exact ⟨h3.1, h3.2, h0.1 rfl⟩


/-! ### Task scheduler (src/utils/scheduler.ts, second copy) -/

/--
`ScheduledTask`: the fields the scheduling and failure logic reads.  The
handler closure itself is injected; its outcome at each invocation is passed
to `runTask` as a boolean.  Note that the interface does *not* store the
`alignToHour` option: `addTask` consumes it for the initial `nextRun` and
forgets it.
-/
structure ScheduledTask where
  intervalMs : Int
  enabled : Bool
  errorCount : Nat
  maxErrors : Nat
  nextRun : Int
  lastRun : Option Int

/-- Start of the next calendar hour after `now`:
`nextHour.setHours(now.getHours() + 1, 0, 0, 0)` on a copy of `now`,
modelled on epoch milliseconds for a timezone at a whole-hour UTC offset
(hour boundaries then coincide with epoch-hour boundaries). -/
def nextHourStart (now : Int) : Int := (Int.fdiv now 3600000 + 1) * 3600000

/-- The initial `nextRun` computed by `addTask` (lines 305-315): the next
hour boundary when `options.alignToHour` is set and the interval is at least
one hour, else `now + intervalMs`. -/
def addTaskNextRun (alignToHour : Bool) (intervalMs : Int) (now : Int) : Int :=
  if alignToHour ∧ 3600000 ≤ intervalMs then nextHourStart now
  else now + intervalMs

/-- `TaskScheduler.addTask` (lines 293-341): the freshly registered task
(`errorCount = 0`, no `lastRun`; `enabled` and `maxErrors` from options with
defaults true and 5 at the callers). -/
def addTask (alignToHour : Bool) (intervalMs : Int) (maxErrors : Nat)
    (enabled : Bool) (now : Int) : ScheduledTask :=
  ⟨intervalMs, enabled, 0, maxErrors,
    addTaskNextRun alignToHour intervalMs now, none⟩

/-- `TaskScheduler.scheduleNextExecution` (lines 484-502): the `nextRun`
recomputed after each firing.  It consults only `intervalMs`: every interval
of at least one hour is re-aligned to the next hour boundary, whether or not
the task was added with `alignToHour`. -/
def scheduleNextExecution (task : ScheduledTask) (now : Int) : ScheduledTask :=
  if 3600000 ≤ task.intervalMs then
    ⟨task.intervalMs, task.enabled, task.errorCount, task.maxErrors,
      nextHourStart now, task.lastRun⟩
  else
    ⟨task.intervalMs, task.enabled, task.errorCount, task.maxErrors,
      now + task.intervalMs, task.lastRun⟩

/-- `TaskScheduler.runTask` (lines 507-537): a no-op for a disabled task
(the handler is not invoked); otherwise `lastRun = now`, the handler runs
(outcome `handlerOk`), `errorCount` resets to 0 on success, and on failure
it increments and the task is disabled once `errorCount >= maxErrors`
(`stopTask` sets `enabled = false`).  The boolean reports whether the
handler was invoked. -/
def runTask (task : ScheduledTask) (now : Int) (handlerOk : Bool) :
    ScheduledTask × Bool :=
  if task.enabled = false then (task, false)
  else
    match handlerOk with
    | true =>
        (⟨task.intervalMs, task.enabled, 0, task.maxErrors, task.nextRun,
          some now⟩, true)
    | false =>
        if task.maxErrors ≤ task.errorCount + 1 then
          (⟨task.intervalMs, false, task.errorCount + 1, task.maxErrors,
            task.nextRun, some now⟩, true)
        else
          (⟨task.intervalMs, task.enabled, task.errorCount + 1,
            task.maxErrors, task.nextRun, some now⟩, true)

/-- `n` consecutive firings of a task whose handler always fails. -/
def iterFail (t : ScheduledTask) (now : Int) : Nat → ScheduledTask
  | 0 => t
  | n + 1 => (runTask (iterFail t now n) now false).1

theorem runTask_disabled (t : ScheduledTask) (now : Int) (ok : Bool)
    (h : t.enabled = false) : runTask t now ok = (t, false) := by
  unfold runTask
  rw [if_pos h]

theorem runTask_ok (t : ScheduledTask) (now : Int) (h : t.enabled = true) :
    runTask t now true = (⟨t.intervalMs, t.enabled, 0, t.maxErrors, t.nextRun,
      some now⟩, true) := by
  unfold runTask
  rw [if_neg (by rw [h]; simp)]

theorem runTask_fail_limit (t : ScheduledTask) (now : Int)
    (h : t.enabled = true) (hlim : t.maxErrors ≤ t.errorCount + 1) :
    runTask t now false = (⟨t.intervalMs, false, t.errorCount + 1,
      t.maxErrors, t.nextRun, some now⟩, true) := by
  unfold runTask
  rw [if_neg (by rw [h]; simp)]
  simp only [if_pos hlim]

theorem runTask_fail_under (t : ScheduledTask) (now : Int)
    (h : t.enabled = true) (hlim : t.errorCount + 1 < t.maxErrors) :
    runTask t now false = (⟨t.intervalMs, t.enabled, t.errorCount + 1,
      t.maxErrors, t.nextRun, some now⟩, true) := by
  unfold runTask
  rw [if_neg (by rw [h]; simp)]
  simp only [if_neg (not_le.mpr hlim)]

theorem runTask_maxErrors (t : ScheduledTask) (now : Int) (ok : Bool) :
    (runTask t now ok).1.maxErrors = t.maxErrors := by
  by_cases h : t.enabled = false
  · rw [runTask_disabled t now ok h]
  · have h1 : t.enabled = true := by
      cases henb : t.enabled
      · exact absurd henb h
      · rfl
    cases ok
    · by_cases h2 : t.maxErrors ≤ t.errorCount + 1
      · rw [runTask_fail_limit t now h1 h2]
      · rw [runTask_fail_under t now h1 (by omega)]
    · rw [runTask_ok t now h1]

theorem iterFail_maxErrors (t : ScheduledTask) (now : Int) (n : Nat) :
    (iterFail t now n).maxErrors = t.maxErrors := by
  induction n with
  | zero => rfl
  | succ n ih =>
      show (runTask (iterFail t now n) now false).1.maxErrors = t.maxErrors
      rw [runTask_maxErrors]
      exact ih

/-- State reached after `n` always-failing firings of a fresh enabled task:
still enabled with `errorCount = n` while `n < maxErrors`, and permanently
disabled with `errorCount = maxErrors` from the `maxErrors`-th failure on. -/
theorem iterFail_state (t0 : ScheduledTask) (now : Int) (M : Nat)
    (h0 : t0.enabled = true) (hec : t0.errorCount = 0) (hM : t0.maxErrors = M)
    (hMpos : 0 < M) (n : Nat) :
    (n < M → (iterFail t0 now n).enabled = true
      ∧ (iterFail t0 now n).errorCount = n)
    ∧ (M ≤ n → (iterFail t0 now n).enabled = false
      ∧ (iterFail t0 now n).errorCount = M) := by
  induction n with
  | zero =>
      refine ⟨fun _ => ⟨h0, hec⟩, fun h => absurd h (by omega)⟩
  | succ n ih =>
      have hmax : (iterFail t0 now n).maxErrors = M := by
        rw [iterFail_maxErrors, hM]
      constructor
      · intro hlt
        have hn := ih.1 (by omega)
        show ((runTask (iterFail t0 now n) now false).1.enabled = true
          ∧ (runTask (iterFail t0 now n) now false).1.errorCount = n + 1)
        rw [runTask_fail_under _ _ hn.1 (by rw [hn.2, hmax]; omega)]
        exact ⟨hn.1, by rw [hn.2]⟩
      · intro hge
        by_cases hcase : M ≤ n
        · have hn := ih.2 hcase
          show ((runTask (iterFail t0 now n) now false).1.enabled = false
            ∧ (runTask (iterFail t0 now n) now false).1.errorCount = M)
          rw [runTask_disabled _ _ _ hn.1]
          exact hn
        · have hn := ih.1 (by omega)
          have hnM : n + 1 = M := by omega
          show ((runTask (iterFail t0 now n) now false).1.enabled = false
            ∧ (runTask (iterFail t0 now n) now false).1.errorCount = M)
          rw [runTask_fail_limit _ _ hn.1 (by rw [hn.2, hmax]; omega)]
          exact ⟨rfl, by rw [hn.2, hnM]⟩

/--
C9 (confirmed): for a fresh enabled job with `maxErrors = M > 0` whose
handler fails on every invocation, the `n`-th failing invocation leaves
`errorCount = n` while the job stays enabled for `n < M`; the job is
disabled exactly after the `M`-th consecutive failure (enabled with
`errorCount = M - 1` after `M - 1` failures, disabled with
`errorCount = M` from `M` failures on); once disabled, `runTask` returns
without invoking the handler and leaves the state unchanged; and a
successful invocation of any enabled task resets `errorCount` to 0.
-/
theorem c9_circuit_breaker (t0 : ScheduledTask) (now : Int) (M : Nat)
    (h0 : t0.enabled = true) (hec : t0.errorCount = 0) (hM : t0.maxErrors = M)
    (hMpos : 0 < M) :
    (∀ n, n < M → (iterFail t0 now n).enabled = true
      ∧ (iterFail t0 now n).errorCount = n
      ∧ (runTask (iterFail t0 now n) now false).2 = true)
    ∧ (∀ n, M ≤ n → (iterFail t0 now n).enabled = false
      ∧ (iterFail t0 now n).errorCount = M
      ∧ runTask (iterFail t0 now n) now false = (iterFail t0 now n, false))
    ∧ (∀ t : ScheduledTask, t.enabled = true →
        (runTask t now true).1.errorCount = 0) := by
  refine ⟨?_, ?_, ?_⟩
  · intro n hn
    have hs := (iterFail_state t0 now M h0 hec hM hMpos n).1 hn
    have hmax : (iterFail t0 now n).maxErrors = M := by
      rw [iterFail_maxErrors, hM]
    refine ⟨hs.1, hs.2, ?_⟩
    by_cases hcase : (iterFail t0 now n).maxErrors
        ≤ (iterFail t0 now n).errorCount + 1
    · rw [runTask_fail_limit _ _ hs.1 hcase]
    · rw [runTask_fail_under _ _ hs.1 (by omega)]
  · intro n hn
    have hs := (iterFail_state t0 now M h0 hec hM hMpos n).2 hn
    exact ⟨hs.1, hs.2, runTask_disabled _ _ _ hs.1⟩
  · intro t ht
    rw [runTask_ok t now ht]

/-- C9 (witness): the theorem applied to a concrete task with
`maxErrors = 2`: enabled with one error after one failure, disabled with two
errors after two, no further invocation afterwards, and a success on an
enabled task resets the error count. -/
theorem c9_circuit_breaker_witness :
    (iterFail ⟨60000, true, 0, 2, 60000, none⟩ 5 1).enabled = true
    ∧ (iterFail ⟨60000, true, 0, 2, 60000, none⟩ 5 1).errorCount = 1
    ∧ (iterFail ⟨60000, true, 0, 2, 60000, none⟩ 5 2).enabled = false
    ∧ (iterFail ⟨60000, true, 0, 2, 60000, none⟩ 5 2).errorCount = 2
    ∧ runTask (iterFail ⟨60000, true, 0, 2, 60000, none⟩ 5 2) 5 false
        = (iterFail ⟨60000, true, 0, 2, 60000, none⟩ 5 2, false)
    ∧ (runTask ⟨60000, true, 1, 2, 60000, none⟩ 5 true).1.errorCount = 0 := by
  have h := c9_circuit_breaker ⟨60000, true, 0, 2, 60000, none⟩ 5 2 rfl rfl rfl
    (by decide)
  have h1 := h.1 1 (by decide)
  have h2 := h.2.1 2 (by decide)
  exact ⟨h1.1, h1.2.1, h2.1, h2.2.1, h2.2.2, h.2.2 _ rfl⟩


theorem lt_nextHourStart (now : Int) : now < nextHourStart now := by
  unfold nextHourStart
  rw [Int.fdiv_eq_ediv now (by norm_num)]
  exact Int.lt_ediv_add_one_mul_self now (by norm_num)

theorem dvd_nextHourStart (now : Int) : (3600000 : Int) ∣ nextHourStart now :=
  ⟨Int.fdiv now 3600000 + 1, by unfold nextHourStart; ring⟩

/--
C8 (amended): after each firing the scheduler recomputes `nextRunAt` from
`intervalMs` alone — the `alignToHourBoundary` option is not stored on the
task and is not consulted.  Every job with `intervalMs >= 1 hour` is
re-aligned to the start of the next calendar hour (a future instant on an
hour boundary), whether or not it was created with hour alignment; every job
with `intervalMs < 1 hour` gets `now + intervalMs`.  Only the *initial*
`nextRunAt` computed by `addTask` follows the claimed original rule: the
next hour boundary when `alignToHourBoundary` and `intervalMs >= 1 hour`,
else `now + intervalMs`.
-/
theorem c8_realign_amended (alignToHour : Bool) (intervalMs now now0 : Int)
    (maxErrors : Nat) (enabled : Bool) :
    (3600000 ≤ intervalMs →
      (scheduleNextExecution (addTask alignToHour intervalMs maxErrors enabled
          now0) now).nextRun = nextHourStart now
      ∧ now < nextHourStart now
      ∧ (3600000 : Int) ∣ nextHourStart now)
    ∧ (intervalMs < 3600000 →
      (scheduleNextExecution (addTask alignToHour intervalMs maxErrors enabled
          now0) now).nextRun = now + intervalMs)
    ∧ (addTask alignToHour intervalMs maxErrors enabled now0).nextRun
        = (if alignToHour ∧ 3600000 ≤ intervalMs then nextHourStart now0
           else now0 + intervalMs) := by
  refine ⟨?_, ?_, rfl⟩
  · intro h
    refine ⟨?_, lt_nextHourStart now, dvd_nextHourStart now⟩
    unfold scheduleNextExecution
    rw [show (addTask alignToHour intervalMs maxErrors enabled
      now0).intervalMs = intervalMs from rfl, if_pos h]
  · intro h
    unfold scheduleNextExecution
    rw [show (addTask alignToHour intervalMs maxErrors enabled
      now0).intervalMs = intervalMs from rfl, if_neg (not_le.mpr h)]

/--
C8 (counterexample): the claim says a job created *without* hour alignment
recomputes `nextRunAt = now + intervalMs` after each firing.  A job added
without alignment with a 2-hour interval fires at `now = 9000000` (2:30:00):
the code re-aligns to the next hour boundary 10800000 (3:00:00) because
`scheduleNextExecution` only checks `intervalMs >= 1 hour`, instead of the
claimed `9000000 + 7200000 = 16200000`.
-/
theorem c8_realign_counterexample :
    (scheduleNextExecution (addTask false 7200000 5 true 0) 9000000).nextRun
      = 10800000
    ∧ (scheduleNextExecution (addTask false 7200000 5 true 0) 9000000).nextRun
      ≠ 9000000 + 7200000 := by
  constructor <;> decide

/-- C8 (witness): the amended theorem applied to a 2-hour job created
without alignment firing at 9000000 ms, and to a 1-minute job firing at
500 ms. -/
theorem c8_realign_witness :
    (scheduleNextExecution (addTask false 7200000 5 true 0) 9000000).nextRun
      = nextHourStart 9000000
    ∧ (9000000 : Int) < nextHourStart 9000000
    ∧ (3600000 : Int) ∣ nextHourStart 9000000
    ∧ (scheduleNextExecution (addTask false 60000 5 true 0) 500).nextRun
      = 500 + 60000
    ∧ (addTask true 7200000 5 true 0).nextRun = nextHourStart 0
    ∧ (addTask false 7200000 5 true 0).nextRun = 0 + 7200000 := by
  have h1 := c8_realign_amended false 7200000 9000000 0 5 true
  have h2 := c8_realign_amended false 60000 500 0 5 true
  have h3 := c8_realign_amended true 7200000 9000000 0 5 true
  have hc1 := h1.1 (by decide)
  refine ⟨hc1.1, hc1.2.1, hc1.2.2, h2.2.1 (by decide), ?_, ?_⟩
  · rw [h3.2.2]
    decide
  · rw [h1.2.2]
    decide


/-! ### generateKey and JSON.stringify of string records -/

/-- One character escaped as in ECMA-262 `JSON.stringify` string quoting:
quote and backslash get two-character escapes; backspace, form feed,
newline, carriage return and tab get their short escapes; every other code
point below 32 becomes `\u00XX`; all other characters are emitted verbatim.
(Lone surrogates cannot occur in a Lean `Char` and are not modelled.) -/
def escChar (c : Char) : List Char :=
  if c = '"' then ['\\', '"']
  else if c = '\\' then ['\\', '\\']
  else if c = '\x08' then ['\\', 'b']
  else if c = '\x0c' then ['\\', 'f']
  else if c = '\n' then ['\\', 'n']
  else if c = '\r' then ['\\', 'r']
  else if c = '\t' then ['\\', 't']
  else if c.toNat < 32 then
    ['\\', 'u', '0', '0', Nat.digitChar (c.toNat / 16),
      Nat.digitChar (c.toNat % 16)]
  else [c]

/-- A JSON-quoted string body. -/
def escStr : List Char → List Char
  | [] => []
  | c :: cs => escChar c ++ escStr cs

/-- One serialized record entry, `"k":"v"`. -/
def entryChars (k v : String) : List Char :=
  '"' :: escStr k.data ++ '"' :: ':' :: '"' :: escStr v.data ++ ['"']

/-- The comma-joined entries of `JSON.stringify` on a string record; JS
object properties serialize in insertion order. -/
def entriesChars : List (String × String) → List Char
  | [] => []
  | [kv] => entryChars kv.1 kv.2
  | kv :: rest => entryChars kv.1 kv.2 ++ ',' :: entriesChars rest

/-- `JSON.stringify` of a `Record<string, string>`. -/
def jsonStringify (l : List (String × String)) : String :=
  ⟨'{' :: (entriesChars l ++ ['}'])⟩

/-- `CacheManager.generateKey` (src/db/client.ts lines 333-343):
`apiName:endpoint:<json pathParams>:<json queryParams>`. -/
def generateKey (apiName endpoint : String)
    (pathParams queryParams : List (String × String)) : String :=
  apiName ++ ":" ++ endpoint ++ ":" ++ jsonStringify pathParams ++ ":"
    ++ jsonStringify queryParams

/-- Decoder for JSON-quoted content used only in the proofs: reads escaped
characters until the terminating unescaped quote, returning the decoded
characters and the remainder.  `escStr` round-trips through it, which gives
injectivity of the serialization. -/
def hexVal (c : Char) : Nat :=
  if c = '0' then 0 else if c = '1' then 1 else if c = '2' then 2
  else if c = '3' then 3 else if c = '4' then 4 else if c = '5' then 5
  else if c = '6' then 6 else if c = '7' then 7 else if c = '8' then 8
  else if c = '9' then 9 else if c = 'a' then 10 else if c = 'b' then 11
  else if c = 'c' then 12 else if c = 'd' then 13 else if c = 'e' then 14
  else 15

/-- Inverse of the two-character escapes. -/
def unescShort (e : Char) : Char :=
  if e = 'b' then '\x08' else if e = 'f' then '\x0c'
  else if e = 'n' then '\n' else if e = 'r' then '\r'
  else if e = 't' then '\t' else e

/-- Parse a quoted-string body up to its closing quote. -/
def unquote : List Char → Option (List Char × List Char)
  | [] => none
  | '"' :: rest => some ([], rest)
  | '\\' :: 'u' :: h1 :: h2 :: h3 :: h4 :: rest =>
      (unquote rest).map (fun p =>
        (Char.ofNat (hexVal h1 * 4096 + hexVal h2 * 256 + hexVal h3 * 16
          + hexVal h4) :: p.1, p.2))
  | '\\' :: [] => none
  | '\\' :: e :: rest =>
      (unquote rest).map (fun p => (unescShort e :: p.1, p.2))
  | c :: rest => (unquote rest).map (fun p => (c :: p.1, p.2))

set_option maxHeartbeats 1000000 in
theorem hexVal_digitChar : ∀ d < 16, hexVal (Nat.digitChar d) = d := by decide

theorem unquote_escChar (c : Char) (l : List Char) :
    unquote (escChar c ++ l) = (unquote l).map (fun p => (c :: p.1, p.2)) := by
  unfold escChar
  split_ifs with h1 h2 h3 h4 h5 h6 h7 h8
  · subst h1; simp [unquote, unescShort]
  · subst h2; simp [unquote, unescShort]
  · subst h3; simp [unquote, unescShort]
  · subst h4; simp [unquote, unescShort]
  · subst h5; simp [unquote, unescShort]
  · subst h6; simp [unquote, unescShort]
  · subst h7; simp [unquote, unescShort]
  · simp only [List.cons_append, List.nil_append]
    rw [show unquote ('\\' :: 'u' :: '0' :: '0'
        :: Nat.digitChar (c.toNat / 16) :: Nat.digitChar (c.toNat % 16) :: l)
      = (unquote l).map (fun p =>
        (Char.ofNat (hexVal '0' * 4096 + hexVal '0' * 256
          + hexVal (Nat.digitChar (c.toNat / 16)) * 16
          + hexVal (Nat.digitChar (c.toNat % 16))) :: p.1, p.2)) from rfl]
    have hd1 : hexVal (Nat.digitChar (c.toNat / 16)) = c.toNat / 16 :=
      hexVal_digitChar _ (by omega)
    have hd2 : hexVal (Nat.digitChar (c.toNat % 16)) = c.toNat % 16 :=
      hexVal_digitChar _ (by omega)
    rw [hd1, hd2]
    have hv : hexVal '0' * 4096 + hexVal '0' * 256 + c.toNat / 16 * 16
        + c.toNat % 16 = c.toNat := by
      have := Nat.div_add_mod c.toNat 16
      simp only [hexVal]
      norm_num
      omega
    rw [hv, Char.ofNat_toNat]
  · have hc1 : c ≠ '"' := h1
    have hc2 : c ≠ '\\' := h2
    simp [unquote, hc1, hc2]

theorem unquote_escStr (s l : List Char) :
    unquote (escStr s ++ '"' :: l) = some (s, l) := by
  induction s with
  | nil => simp [escStr, unquote]
  | cons c cs ih =>
      show unquote ((escChar c ++ escStr cs) ++ '"' :: l) = _
      rw [List.append_assoc, unquote_escChar, ih]
      rfl

/-- The escaped body followed by the closing quote determines the original
string and the remainder. -/
theorem escStr_quote_inj (s1 s2 t1 t2 : List Char)
    (h : escStr s1 ++ '"' :: t1 = escStr s2 ++ '"' :: t2) :
    s1 = s2 ∧ t1 = t2 := by
  have h1 := unquote_escStr s1 t1
  rw [h, unquote_escStr s2 t2] at h1
  simp only [Option.some.injEq, Prod.mk.injEq] at h1
  exact ⟨h1.1.symm, h1.2.symm⟩

theorem entryChars_append (k v : String) (r : List Char) :
    entryChars k v ++ r = ('"' :: escStr k.data ++ ['"', ':', '"'])
      ++ (escStr v.data ++ '"' :: r) := by
  unfold entryChars
  simp [List.append_assoc]

/-- Two serialized entries with the same key followed by arbitrary tails
agree only when the values and the tails agree. -/
theorem entryChars_append_inj (k v1 v2 : String) (r1 r2 : List Char)
    (h : entryChars k v1 ++ r1 = entryChars k v2 ++ r2) :
    v1 = v2 ∧ r1 = r2 := by
  rw [entryChars_append, entryChars_append] at h
  have h2 := List.append_cancel_left h
  have h3 := escStr_quote_inj _ _ _ _ h2
  exact ⟨String.ext h3.1, h3.2⟩

/-- Serialized records with the same key sequence followed by arbitrary
tails agree only when the records and the tails agree. -/
theorem entriesChars_append_inj :
    ∀ (l1 l2 : List (String × String)) (r1 r2 : List Char),
    l1.map Prod.fst = l2.map Prod.fst →
    entriesChars l1 ++ r1 = entriesChars l2 ++ r2 → l1 = l2 ∧ r1 = r2 := by
  intro l1
  induction l1 with
  | nil =>
      intro l2 r1 r2 hk h
      cases l2 with
      | nil => exact ⟨rfl, by simpa [entriesChars] using h⟩
      | cons kv2 rest2 => simp at hk
  | cons kv1 rest1 ih =>
      intro l2 r1 r2 hk h
      cases l2 with
      | nil => simp at hk
      | cons kv2 rest2 =>
          simp only [List.map_cons, List.cons.injEq] at hk
          obtain ⟨hk1, hkrest⟩ := hk
          cases rest1 with
          | nil =>
              cases rest2 with
              | nil =>
                  rw [show entriesChars [kv1] = entryChars kv1.1 kv1.2
                      from rfl,
                    show entriesChars [kv2] = entryChars kv2.1 kv2.2
                      from rfl, ← hk1] at h
                  have h4 := entryChars_append_inj kv1.1 kv1.2 kv2.2 r1 r2 h
                  obtain ⟨ka, va⟩ := kv1
                  obtain ⟨kb, vb⟩ := kv2
                  simp only at hk1 h4
                  simp [hk1, h4.1, h4.2]
              | cons r2a rest2' => simp at hkrest
          | cons r1a rest1' =>
              cases rest2 with
              | nil => simp at hkrest
              | cons r2a rest2' =>
                  rw [show entriesChars (kv1 :: r1a :: rest1')
                      = entryChars kv1.1 kv1.2
                        ++ ',' :: entriesChars (r1a :: rest1') from rfl,
                    show entriesChars (kv2 :: r2a :: rest2')
                      = entryChars kv2.1 kv2.2
                        ++ ',' :: entriesChars (r2a :: rest2') from rfl,
                    List.append_assoc, List.append_assoc, List.cons_append,
                    List.cons_append, ← hk1] at h
                  have h4 := entryChars_append_inj kv1.1 kv1.2 kv2.2 _ _ h
                  have h5 := h4.2
                  simp only [List.cons.injEq, true_and] at h5
                  have h6 := ih (r2a :: rest2') r1 r2 hkrest h5
                  obtain ⟨ka, va⟩ := kv1
                  obtain ⟨kb, vb⟩ := kv2
                  simp only at hk1 h4
                  simp [hk1, h4.1, h6.1, h6.2]


theorem generateKey_data (a e : String) (p q : List (String × String)) :
    (generateKey a e p q).data
      = a.data ++ ':' :: (e.data ++ ':' :: '{'
          :: (entriesChars p ++ '}' :: ':' :: '{'
            :: (entriesChars q ++ ['}']))) := by
  unfold generateKey jsonStringify
  simp only [String.data_append]
  simp [List.append_assoc]

/--
C3 (amended): `generateKey` is a pure function, so identical argument lists
yield identical key strings; but the parameter records serialize via
`JSON.stringify` in property insertion order, so the same key/value pairs
supplied in a different key order can yield a different key string (see the
counterexample).  For fixed key sequences the serialization is injective:
two calls with the same namespace, endpoint and parameter-key sequences
yield equal key strings exactly when the parameter records are equal — in
particular, changing any single parameter value yields a different key
string.
-/
theorem c3_generateKey_amended (a e : String)
    (p1 p2 q1 q2 : List (String × String))
    (hp : p1.map Prod.fst = p2.map Prod.fst)
    (hq : q1.map Prod.fst = q2.map Prod.fst) :
    generateKey a e p1 q1 = generateKey a e p2 q2 ↔ (p1 = p2 ∧ q1 = q2) := by
  constructor
  · intro h
    have hd := congrArg String.data h
    rw [generateKey_data, generateKey_data] at hd
    have h1 := List.append_cancel_left hd
    simp only [List.cons.injEq, true_and] at h1
    have h2 := List.append_cancel_left h1
    simp only [List.cons.injEq, true_and] at h2
    have h3 := entriesChars_append_inj p1 p2 _ _ hp h2
    have h4 := h3.2
    simp only [List.cons.injEq, true_and] at h4
    have h5 := entriesChars_append_inj q1 q2 _ _ hq h4
    exact ⟨h3.1, h5.1⟩
  · rintro ⟨rfl, rfl⟩
    rfl

/--
C3 (counterexample): the claim says maps holding the same key/value pairs
supplied in a different key order yield identical key strings.
`JSON.stringify` serializes object properties in insertion order, so the
same path-parameter pairs in the orders `p, r` and `r, p` yield different
key strings.
-/
theorem c3_generateKey_counterexample :
    generateKey "a" "e" [("p", "1"), ("r", "2")] [("q", "1")]
      ≠ generateKey "a" "e" [("r", "2"), ("p", "1")] [("q", "1")] := by
  decide

/-- C3 (witness): the amended theorem applied to concrete arguments that
differ in a single path-parameter value. -/
theorem c3_generateKey_witness :
    generateKey "a" "e" [("p", "1")] [("q", "1")]
      ≠ generateKey "a" "e" [("p", "2")] [("q", "1")] := by
  intro h
  have h2 := (c3_generateKey_amended "a" "e" [("p", "1")] [("p", "2")]
    [("q", "1")] [("q", "1")] rfl rfl).mp h
  exact absurd h2.1 (by decide)


/-! ### Proxy executor (ProxyEngine.proxyRequest, src/proxy/engine.ts) -/

/-- `EndpointConfig` (src/types/index.ts): the fields the cache logic of
`proxyRequest` reads.  `path`, `method` and static headers only shape the
outbound request, which is abstracted into the transport oracle below. -/
structure EndpointConfig where
  path : String
  method : String
  cacheDuration : Option Int

/-- `ApiConfig`: base URL and named endpoints (the auth descriptor feeds
only `buildUrl`/`buildHeaders`, abstracted with the transport). -/
structure ApiConfig where
  baseUrl : String
  endpoints : List (String × EndpointConfig)

/-- `RequestParams` (src/types/index.ts). -/
structure RequestParams where
  pathParams : List (String × String)
  queryParams : List (String × String)
  headers : List (String × String)

/-- JS `String.prototype.toUpperCase`, ASCII range (the instrument codes the
source compares with are ASCII). -/
def jsToUpperChar (c : Char) : Char :=
  if 'a' ≤ c ∧ c ≤ 'z' then Char.ofNat (c.toNat - 32) else c

def jsToUpper (s : String) : String := ⟨s.data.map jsToUpperChar⟩

/-- Result of one `proxyRequest` call: the returned value or thrown error,
the number of transport (`fetch`) calls performed, and the cache state left
behind. -/
structure ProxyOutcome where
  result : Except String CVal
  fetchCalls : Nat
  state : CacheState

/-- The `forex`/`quote`/`XAU` history side effect of `proxyRequest`: when
the call is for that endpoint and `pathParams.instrument` upper-cases to
`"XAU"`, derive the snapshot sample (`data[0]` if the body is an array,
else the body) and, when it is truthy, append it under
`forex:history:<UPPER>` with the current wall-clock time. -/
def xauHistoryStep (st : CacheState) (now : Int) (apiName endpoint : String)
    (params : RequestParams) (data : CVal) : CacheState :=
  if apiName = "forex" ∧ endpoint = "quote" then
    match lookupKey params.pathParams "instrument" with
    | none => st
    | some instrument =>
        if instrument ≠ "" ∧ jsToUpper instrument = "XAU" then
          match data with
          | .arr pts =>
              match pts.head? with
              | some p =>
                  appendHourlySnapshot st
                    ("forex:history:" ++ jsToUpper instrument)
                    (now, .obj p.1 p.2) now
              | none => st
          | d =>
              if truthyVal d then
                appendHourlySnapshot st
                  ("forex:history:" ++ jsToUpper instrument) (now, d) now
              else st
        else st
  else st

/--
`ProxyEngine.proxyRequest`: resolve the API config and endpoint (throwing
`ConfigNotFound` errors otherwise), build
`cacheKey = generateKey(apiName, endpoint, pathParams, queryParams)` and
`cacheDuration = endpointConfig.cacheDuration || 0`; when
`cacheDuration > 0`, consult `cacheGet` and return a non-null hit without
any transport call; otherwise perform the single `fetch` (its outcome —
parsed body or thrown transport/HTTP error — is the oracle `fetchResult`;
URL and header construction affect only the outbound request and are
abstracted into the oracle), on success write the body to the cache when
caching is enabled, run the XAU history side effect, and return the body.
`fetchCalls` counts consumptions of the oracle.
-/
def proxyRequest (cfgs : List (String × ApiConfig)) (defaultTtl : Int)
    (maxSize : Nat) (st : CacheState) (now : Int) (apiName endpoint : String)
    (params : RequestParams) (fetchResult : Except String CVal) :
    ProxyOutcome :=
  match lookupKey cfgs apiName with
  | none => ⟨.error "ConfigNotFound: api", 0, st⟩
  | some config =>
      match lookupKey config.endpoints endpoint with
      | none => ⟨.error "ConfigNotFound: endpoint", 0, st⟩
      | some endpointConfig =>
          let cacheKey := generateKey apiName endpoint params.pathParams
            params.queryParams
          let cacheDuration := match endpointConfig.cacheDuration with
            | none => 0
            | some dur => if dur = 0 then 0 else dur
          let lookupRes := if 0 < cacheDuration then
              cacheGet defaultTtl st cacheKey (some cacheDuration) now
            else (.null, st)
          if 0 < cacheDuration ∧ isNull lookupRes.1 = false then
            ⟨.ok lookupRes.1, 0, lookupRes.2⟩
          else
            match fetchResult with
            | .error e => ⟨.error e, 1, lookupRes.2⟩
            | .ok data =>
                ⟨.ok data, 1,
                  xauHistoryStep
                    (if 0 < cacheDuration then
                      cacheSet maxSize lookupRes.2 cacheKey data now
                    else lookupRes.2)
                    now apiName endpoint params data⟩

theorem isNull_eq_false {d : CVal} (h : d ≠ .null) : isNull d = false := by
  cases d with
  | null => exact absurd rfl h
  | atom t n => rfl
  | obj t v => rfl
  | arr pts => rfl

theorem lookupKey_cacheSet_self (maxSize : Nat) (st : CacheState)
    (k : String) (v : CVal) (now : Int) :
    lookupKey (cacheSet maxSize st k v now) k = some ⟨v, now⟩ := by
  unfold cacheSet
  exact lookupKey_mapSet_self _ _ _

theorem appendHourlySnapshot_lookup_ne (st : CacheState) (key : String)
    (snap : Int × CVal) (now : Int) (k1 : String) (h : key ≠ k1) :
    lookupKey (appendHourlySnapshot st key snap now) k1 = lookupKey st k1 := by
  unfold appendHourlySnapshot
  exact lookupKey_mapSet_ne _ _ _ _ h

/-- The history key written by the XAU side effect is never the cache key of
the `forex`/`quote` call that triggered it. -/
theorem histKey_ne_generateKey (p q : List (String × String)) :
    ("forex:history:" ++ "XAU" : String) ≠ generateKey "forex" "quote" p q := by
  intro h
  have hd := congrArg String.data h
  rw [generateKey_data] at hd
  rw [show ("forex:history:" ++ "XAU" : String).data
    = ['f', 'o', 'r', 'e', 'x', ':', 'h', 'i', 's', 't', 'o', 'r', 'y', ':',
      'X', 'A', 'U'] from rfl] at hd
  rw [show ("forex" : String).data = ['f', 'o', 'r', 'e', 'x'] from rfl,
    show ("quote" : String).data = ['q', 'u', 'o', 't', 'e'] from rfl] at hd
  simp only [List.cons_append, List.nil_append, List.cons.injEq] at hd
  exact absurd hd.2.2.2.2.2.2.1 (by decide)

/-- The XAU history side effect never touches the entry under the call's
own cache key. -/
theorem xauHistoryStep_lookup (st : CacheState) (now : Int)
    (apiName endpoint : String) (params : RequestParams) (data : CVal) :
    lookupKey (xauHistoryStep st now apiName endpoint params data)
      (generateKey apiName endpoint params.pathParams params.queryParams)
    = lookupKey st
      (generateKey apiName endpoint params.pathParams params.queryParams) := by
  unfold xauHistoryStep
  by_cases hfq : apiName = "forex" ∧ endpoint = "quote"
  · rw [if_pos hfq]
    obtain ⟨ha, he⟩ := hfq
    subst ha
    subst he
    cases hins : lookupKey params.pathParams "instrument" with
    | none => rfl
    | some instrument =>
        dsimp only
        by_cases hg : instrument ≠ "" ∧ jsToUpper instrument = "XAU"
        · rw [if_pos hg]
          cases data with
          | arr pts =>
              dsimp only
              cases hh : pts.head? with
              | none => rfl
              | some p =>
                  dsimp only
                  rw [appendHourlySnapshot_lookup_ne]
                  rw [hg.2]
                  exact histKey_ne_generateKey _ _
          | null => rfl
          | atom t n =>
              dsimp only
              by_cases ht : truthyVal (CVal.atom t n) = true
              · rw [if_pos ht, appendHourlySnapshot_lookup_ne]
                rw [hg.2]
                exact histKey_ne_generateKey _ _
              · rw [if_neg ht]
          | obj t v =>
              dsimp only
              rw [if_pos (show truthyVal (CVal.obj t v) = true from rfl),
                appendHourlySnapshot_lookup_ne]
              rw [hg.2]
              exact histKey_ne_generateKey _ _
        · rw [if_neg hg]
  · rw [if_neg hfq]


/-- `proxyRequest` with the config and endpoint resolved and a positive
cache duration, reduced to its cache-consulting core. -/
theorem proxyRequest_pos (cfgs : List (String × ApiConfig)) (defaultTtl : Int)
    (maxSize : Nat) (st : CacheState) (now : Int) (apiName endpoint : String)
    (params : RequestParams) (fr : Except String CVal) (config : ApiConfig)
    (epc : EndpointConfig) (d : Int)
    (hc : lookupKey cfgs apiName = some config)
    (he : lookupKey config.endpoints endpoint = some epc)
    (hd : epc.cacheDuration = some d) (hdpos : 0 < d) :
    proxyRequest cfgs defaultTtl maxSize st now apiName endpoint params fr
      = (if isNull (cacheGet defaultTtl st
            (generateKey apiName endpoint params.pathParams params.queryParams)
            (some d) now).1 = false then
          ⟨.ok (cacheGet defaultTtl st
            (generateKey apiName endpoint params.pathParams params.queryParams)
            (some d) now).1, 0,
            (cacheGet defaultTtl st
              (generateKey apiName endpoint params.pathParams
                params.queryParams) (some d) now).2⟩
        else
          match fr with
          | .error e => ⟨.error e, 1,
              (cacheGet defaultTtl st
                (generateKey apiName endpoint params.pathParams
                  params.queryParams) (some d) now).2⟩
          | .ok data =>
              ⟨.ok data, 1,
                xauHistoryStep
                  (cacheSet maxSize
                    (cacheGet defaultTtl st
                      (generateKey apiName endpoint params.pathParams
                        params.queryParams) (some d) now).2
                    (generateKey apiName endpoint params.pathParams
                      params.queryParams) data now)
                  now apiName endpoint params data⟩) := by
  unfold proxyRequest
  rw [hc]
  dsimp only
  rw [he]
  dsimp only
  rw [hd]
  dsimp only
  rw [if_neg (show ¬ d = 0 by omega)]
  simp only [if_pos hdpos, eq_true hdpos, true_and, if_true]

/--
C7 (amended): for an endpoint whose descriptor has `cacheDurationMs = d > 0`:
a `run` call whose cache lookup hits (returns non-null) returns the cached
value, performs no transport call and writes nothing; on a miss it performs
exactly one transport call and, on success, stores the response body in the
cache under the generated key; hence a second identical call within the
cache duration performs zero transport calls and returns the identical
value, provided the response body is not JSON null — a null body is cached
but read back through the `!== null` hit test as a miss, so it is fetched
again (see the counterexample).
-/
theorem c7_proxy_cache_amended (cfgs : List (String × ApiConfig))
    (defaultTtl : Int) (maxSize : Nat) (st : CacheState) (now now2 : Int)
    (apiName endpoint : String) (params : RequestParams)
    (fr fr2 : Except String CVal) (config : ApiConfig) (epc : EndpointConfig)
    (d : Int) (data : CVal)
    (hc : lookupKey cfgs apiName = some config)
    (he : lookupKey config.endpoints endpoint = some epc)
    (hd : epc.cacheDuration = some d) (hdpos : 0 < d) :
    (∀ v st1, cacheGet defaultTtl st
        (generateKey apiName endpoint params.pathParams params.queryParams)
        (some d) now = (v, st1) → v ≠ .null →
      proxyRequest cfgs defaultTtl maxSize st now apiName endpoint params fr
        = ⟨.ok v, 0, st1⟩)
    ∧ ((cacheGet defaultTtl st
        (generateKey apiName endpoint params.pathParams params.queryParams)
        (some d) now).1 = .null →
      (proxyRequest cfgs defaultTtl maxSize st now apiName endpoint params
        fr).fetchCalls = 1
      ∧ (fr = .ok data →
          (proxyRequest cfgs defaultTtl maxSize st now apiName endpoint params
            fr).result = .ok data
          ∧ lookupKey (proxyRequest cfgs defaultTtl maxSize st now apiName
              endpoint params fr).state
            (generateKey apiName endpoint params.pathParams params.queryParams)
            = some ⟨data, now⟩))
    ∧ (lookupKey st
        (generateKey apiName endpoint params.pathParams params.queryParams)
          = none →
      fr = .ok data → data ≠ .null → now2 - now ≤ d →
      proxyRequest cfgs defaultTtl maxSize
        (proxyRequest cfgs defaultTtl maxSize st now apiName endpoint params
          fr).state now2 apiName endpoint params fr2
      = ⟨.ok data, 0,
        (proxyRequest cfgs defaultTtl maxSize st now apiName endpoint params
          fr).state⟩) := by
  refine ⟨?_, ?_, ?_⟩
  · intro v st1 hget hv
    rw [proxyRequest_pos cfgs defaultTtl maxSize st now apiName endpoint
      params fr config epc d hc he hd hdpos, hget]
    rw [if_pos (isNull_eq_false hv)]
  · intro hmiss
    rw [proxyRequest_pos cfgs defaultTtl maxSize st now apiName endpoint
      params fr config epc d hc he hd hdpos]
    rw [if_neg (by rw [hmiss]; simp [isNull])]
    constructor
    · cases fr with
      | error e => rfl
      | ok dat => rfl
    · intro hfr
      subst hfr
      refine ⟨rfl, ?_⟩
      show lookupKey (xauHistoryStep _ now apiName endpoint params data) _
        = some ⟨data, now⟩
      rw [xauHistoryStep_lookup, lookupKey_cacheSet_self]
  · intro hnone hfr hdata hwithin
    subst hfr
    have hget1 : cacheGet defaultTtl st
        (generateKey apiName endpoint params.pathParams params.queryParams)
        (some d) now = (.null, st) := by
      unfold cacheGet
      rw [hnone]
    have hcall1 : proxyRequest cfgs defaultTtl maxSize st now apiName endpoint
        params (.ok data)
        = ⟨.ok data, 1,
          xauHistoryStep
            (cacheSet maxSize st
              (generateKey apiName endpoint params.pathParams
                params.queryParams) data now)
            now apiName endpoint params data⟩ := by
      rw [proxyRequest_pos cfgs defaultTtl maxSize st now apiName endpoint
        params (.ok data) config epc d hc he hd hdpos, hget1]
      rw [if_neg (by simp [isNull])]
    rw [hcall1]
    have hlook : lookupKey
        (xauHistoryStep
          (cacheSet maxSize st
            (generateKey apiName endpoint params.pathParams params.queryParams)
            data now)
          now apiName endpoint params data)
        (generateKey apiName endpoint params.pathParams params.queryParams)
        = some ⟨data, now⟩ := by
      rw [xauHistoryStep_lookup, lookupKey_cacheSet_self]
    have hget2 : cacheGet defaultTtl
        (xauHistoryStep
          (cacheSet maxSize st
            (generateKey apiName endpoint params.pathParams params.queryParams)
            data now)
          now apiName endpoint params data)
        (generateKey apiName endpoint params.pathParams params.queryParams)
        (some d) now2
        = (data,
          xauHistoryStep
            (cacheSet maxSize st
              (generateKey apiName endpoint params.pathParams
                params.queryParams) data now)
            now apiName endpoint params data) := by
      unfold cacheGet
      rw [hlook]
      dsimp only
      rw [show jsOrTtl (some d) defaultTtl = d by
        unfold jsOrTtl
        dsimp only
        rw [if_neg (show ¬ d = 0 by omega)]]
      rw [if_neg]
      rintro ⟨h1, h2⟩
      omega
    rw [proxyRequest_pos cfgs defaultTtl maxSize _ now2 apiName endpoint
      params fr2 config epc d hc he hd hdpos, hget2]
    rw [if_pos (isNull_eq_false hdata)]

/--
C7 (counterexample): the claim promises that after a miss the response body
is cached so that a second identical call within the cache duration performs
zero transport calls.  When the upstream body is JSON null, the first call
caches null, but the hit test is `cachedData !== null`, so the second call
misses again and performs a transport call (1, not 0 as claimed).
-/
theorem c7_proxy_cache_counterexample :
    (proxyRequest [("a", ⟨"u", [("e", ⟨"/p", "GET", some 5000⟩)]⟩)] 300000
      1000 [] 0 "a" "e" ⟨[], [], []⟩ (.ok .null)).fetchCalls = 1
    ∧ (proxyRequest [("a", ⟨"u", [("e", ⟨"/p", "GET", some 5000⟩)]⟩)] 300000
      1000
      (proxyRequest [("a", ⟨"u", [("e", ⟨"/p", "GET", some 5000⟩)]⟩)] 300000
        1000 [] 0 "a" "e" ⟨[], [], []⟩ (.ok .null)).state
      1000 "a" "e" ⟨[], [], []⟩ (.ok .null)).fetchCalls = 1 := by
  constructor <;> rfl

/-- C7 (witness): the amended theorem applied to a concrete configuration:
the first call on an empty cache performs one transport call and caches the
body, and an identical call 1000 ms later performs zero transport calls and
returns the identical value. -/
theorem c7_proxy_cache_witness :
    (proxyRequest [("a", ⟨"u", [("e", ⟨"/p", "GET", some 5000⟩)]⟩)] 300000
      1000 [] 0 "a" "e" ⟨[], [], []⟩ (.ok (CVal.atom true 7))).fetchCalls = 1
    ∧ (proxyRequest [("a", ⟨"u", [("e", ⟨"/p", "GET", some 5000⟩)]⟩)] 300000
      1000
      (proxyRequest [("a", ⟨"u", [("e", ⟨"/p", "GET", some 5000⟩)]⟩)] 300000
        1000 [] 0 "a" "e" ⟨[], [], []⟩ (.ok (CVal.atom true 7))).state
      1000 "a" "e" ⟨[], [], []⟩ (.ok (CVal.atom true 7))).fetchCalls = 0
    ∧ (proxyRequest [("a", ⟨"u", [("e", ⟨"/p", "GET", some 5000⟩)]⟩)] 300000
      1000
      (proxyRequest [("a", ⟨"u", [("e", ⟨"/p", "GET", some 5000⟩)]⟩)] 300000
        1000 [] 0 "a" "e" ⟨[], [], []⟩ (.ok (CVal.atom true 7))).state
      1000 "a" "e" ⟨[], [], []⟩ (.ok (CVal.atom true 7))).result
      = .ok (CVal.atom true 7) := by
  have h := c7_proxy_cache_amended
    [("a", ⟨"u", [("e", ⟨"/p", "GET", some 5000⟩)]⟩)] 300000 1000 [] 0 1000
    "a" "e" ⟨[], [], []⟩ (.ok (CVal.atom true 7)) (.ok (CVal.atom true 7))
    ⟨"u", [("e", ⟨"/p", "GET", some 5000⟩)]⟩ ⟨"/p", "GET", some 5000⟩ 5000
    (CVal.atom true 7) rfl rfl rfl (by decide)
  have hmiss := (h.2.1 rfl).1
  have hsecond := h.2.2 rfl rfl (by intro hx; cases hx) (by decide)
  refine ⟨hmiss, ?_, ?_⟩
  · rw [hsecond]
  · rw [hsecond]

end ApiBox
